import Mathlib

/-!
Verification of the JSONLab path-addressable JSON document model.

Shallow embedding of the core logic of the repository:
  - `src/types` / `src/utils/jsonUtils.ts`: `JsonValue`, schema inference,
    default-value synthesis, `parseJson`.
  - `src/App.tsx`: the bounded version history (`handleDocumentUpdate`,
    `handleUndo`, `handleRedo`).
  - `QueryTool` (visual query builder): `generateJSONPathFromConditions`,
    `convertJsonPathToAppPath`, and a spec-modelled view of the external
    JSONPath evaluator.
  - `DocumentViewer`: the highlight path tokenizer and the textual
    line-scan that maps a path to a 1-based line range.
-/

namespace JSONLab

/-- `JsonValue` from `src/types`: tagged union over null, boolean, number,
string, array and object.  Numbers are modelled as integers (all documents
used by the specification's properties carry integer numerals); objects are
ordered key/value lists, insertion order preserved. -/
inductive JsonValue where
  | null : JsonValue
  | bool (b : Bool) : JsonValue
  | num (n : Int) : JsonValue
  | str (s : String) : JsonValue
  | arr (items : List JsonValue) : JsonValue
  | obj (fields : List (String × JsonValue)) : JsonValue
  deriving Repr

/-- `PropertyType` from `src/types`. -/
inductive PropertyType where
  | string | number | boolean | null | array | object
  deriving Repr, DecidableEq

/-- `inferType` from `src/utils/jsonUtils.ts`: the runtime type tag of a
JSON value. -/
def inferType : JsonValue → PropertyType
  | .null => .null
  | .arr _ => .array
  | .obj _ => .object
  | .bool _ => .boolean
  | .num _ => .number
  | .str _ => .string

/-- `PropertySchema` from `src/types`: name, inferred type, required flag,
optional array item type, optional nested object schema.  (An inductive
rather than a structure because the nested schema recurses.) -/
inductive PropertySchema where
  | mk (name : String) (type : PropertyType) (required : Bool)
       (arrayItemType : Option PropertyType)
       (objectSchema : Option (List PropertySchema))
  deriving Repr

def PropertySchema.name : PropertySchema → String
  | .mk n _ _ _ _ => n

def PropertySchema.type : PropertySchema → PropertyType
  | .mk _ t _ _ _ => t

def PropertySchema.required : PropertySchema → Bool
  | .mk _ _ r _ _ => r

def PropertySchema.arrayItemType : PropertySchema → Option PropertyType
  | .mk _ _ _ a _ => a

def PropertySchema.objectSchema : PropertySchema → Option (List PropertySchema)
  | .mk _ _ _ _ o => o

/-- `ObjectSchema` from `src/types`. -/
structure ObjectSchema where
  properties : List PropertySchema
  deriving Repr

/-- The per-entry loop body of `inferObjectSchema` from
`src/utils/jsonUtils.ts`, fused over the entry list: for each key/value pair
the type is inferred; a non-empty array additionally gets `arrayItemType`
from element 0, and an object value (or an array whose element 0 is an
object) gets a recursively inferred `objectSchema`. -/
def inferProps : List (String × JsonValue) → List PropertySchema
  | [] => []
  | (k, v) :: rest =>
    (match v with
     | .obj fields => PropertySchema.mk k .object true none (some (inferProps fields))
     | .arr [] => PropertySchema.mk k .array true none none
     | .arr (x :: _) =>
       match x with
       | .obj f => PropertySchema.mk k .array true (some .object) (some (inferProps f))
       | x' => PropertySchema.mk k .array true (some (inferType x')) none
     | v' => PropertySchema.mk k (inferType v') true none none) :: inferProps rest

/-- `inferObjectSchema` from `src/utils/jsonUtils.ts`. -/
def inferObjectSchema (fields : List (String × JsonValue)) : ObjectSchema :=
  ⟨inferProps fields⟩

/-- `getDefaultValue` from `src/utils/jsonUtils.ts`. -/
def getDefaultValue : PropertyType → JsonValue
  | .string => .str ""
  | .number => .num 0
  | .boolean => .bool false
  | .null => .null
  | .array => .arr []
  | .object => .obj []

/-- JavaScript object key assignment `obj[k] = v` on an ordered-field
object: updates the value in place when the key exists, appends otherwise. -/
def objSet (fields : List (String × JsonValue)) (k : String) (v : JsonValue) :
    List (String × JsonValue) :=
  if fields.any (fun p => p.1 = k) then
    fields.map (fun p => if p.1 = k then (k, v) else p)
  else
    fields ++ [(k, v)]

/-- `createDefaultObject` from `src/utils/jsonUtils.ts`: assigns each schema
property its default value into a fresh object. -/
def createDefaultObject (schema : ObjectSchema) : List (String × JsonValue) :=
  schema.properties.foldl (fun acc p => objSet acc p.name (getDefaultValue p.type)) []

/-- The name/type-tag view of a property schema (the data compared by the
schema/default idempotence law). -/
def nameType (q : PropertySchema) : String × PropertyType :=
  (q.name, q.type)

/-- A JavaScript exception value, as observed by a `catch` clause: either an
`Error` carrying a message, or some other thrown value. -/
inductive JsError where
  | error (message : String)
  | nonError
  deriving Repr, DecidableEq

/-- The message `parseJson` derives from a caught exception:
`error instanceof Error ? error.message : 'Invalid JSON'`. -/
def jsErrorMessage : JsError → String
  | .error m => m
  | .nonError => "Invalid JSON"

/-- The result record of `parseJson`: `{ success, data?, error? }`. -/
structure ParseResult where
  success : Bool
  data : Option JsonValue
  error : Option String
  deriving Repr

/-- `parseJson` from `src/utils/jsonUtils.ts`.  `JSON.parse` is an external
collaborator (the spec's deserializer interface, §6), so it is passed in as
a total function `deser` whose exception outcomes are the `Except.error`
channel; the `try/catch` wraps its outcome into the result record. -/
def parseJson (deser : String → Except JsError JsonValue) (jsonString : String) :
    ParseResult :=
  match deser jsonString with
  | .ok data => ⟨true, some data, none⟩
  | .error e => ⟨false, none, some (jsErrorMessage e)⟩

/-- `VersionHistoryItem` from `src/types`: a snapshot of the serialized
document plus a timestamp and a label. -/
structure VersionHistoryItem where
  content : String
  timestamp : Int
  label : String
  deriving Repr, DecidableEq

/-- `MAX_HISTORY_LENGTH` from `src/App.tsx`. -/
def MAX_HISTORY_LENGTH : Nat := 50

/-- The `trimmedHistory` step of `handleDocumentUpdate` in `src/App.tsx`:
keep only the most recent `MAX_HISTORY_LENGTH` entries. -/
def trimHistory (updatedHistory : List VersionHistoryItem) : List VersionHistoryItem :=
  if updatedHistory.length > MAX_HISTORY_LENGTH then
    updatedHistory.drop (updatedHistory.length - MAX_HISTORY_LENGTH)
  else
    updatedHistory

/-- The history-maintenance part of `handleDocumentUpdate` in `src/App.tsx`:
discard entries after the cursor (when the cursor is non-negative), append
the new snapshot, trim to the most recent `MAX_HISTORY_LENGTH` entries, and
move the cursor to the last index.  The cursor is an `Int` because the app
initialises it to `-1`. -/
def appendSnapshot (st : List VersionHistoryItem × Int) (v : VersionHistoryItem) :
    List VersionHistoryItem × Int :=
  (trimHistory ((if st.2 ≥ 0 then st.1.take (st.2.toNat + 1) else []) ++ [v]),
   ((trimHistory ((if st.2 ≥ 0 then st.1.take (st.2.toNat + 1) else []) ++ [v])).length : Int)
     - 1)

/-- Appending a sequence of snapshots one by one via `handleDocumentUpdate`. -/
def appendAll (st : List VersionHistoryItem × Int) (snaps : List VersionHistoryItem) :
    List VersionHistoryItem × Int :=
  snaps.foldl appendSnapshot st

/-- `DocumentState` from `src/types`. -/
structure DocumentState where
  raw : String
  parsed : Option JsonValue
  isValid : Bool
  error : Option String

/-- The app state touched by undo/redo in `src/App.tsx`. -/
structure AppState where
  document : DocumentState
  versionHistory : List VersionHistoryItem
  currentVersionIndex : Int

/-- `handleUndo` from `src/App.tsx`: when the cursor is positive, re-parse
the snapshot one position back and, on parse success, display it and move
the cursor; otherwise leave the state unchanged.  `none` models the
JavaScript crash of reading `.content` off an out-of-range indexing. -/
def handleUndo (deser : String → Except JsError JsonValue) (st : AppState) :
    Option AppState :=
  if st.currentVersionIndex > 0 then
    let newIndex := st.currentVersionIndex - 1
    match st.versionHistory.get? newIndex.toNat with
    | none => none
    | some version =>
      match parseJson deser version.content with
      | ⟨true, some data, _⟩ =>
        some { st with
               document := ⟨version.content, some data, true, none⟩,
               currentVersionIndex := newIndex }
      | _ => some st
  else
    some st

/-- `handleRedo` from `src/App.tsx`: mirror image of `handleUndo` at the
other end of the history. -/
def handleRedo (deser : String → Except JsError JsonValue) (st : AppState) :
    Option AppState :=
  if st.currentVersionIndex < (st.versionHistory.length : Int) - 1 then
    let newIndex := st.currentVersionIndex + 1
    match st.versionHistory.get? newIndex.toNat with
    | none => none
    | some version =>
      match parseJson deser version.content with
      | ⟨true, some data, _⟩ =>
        some { st with
               document := ⟨version.content, some data, true, none⟩,
               currentVersionIndex := newIndex }
      | _ => some st
  else
    some st

/-! ### QueryTool: visual query compilation and path conversion -/

/-- JavaScript `StrWhiteSpaceChar`: the characters trimmed by `Number(...)`
before numeric conversion. -/
def jsWhitespace (c : Char) : Bool :=
  c = ' ' ∨ c = '\t' ∨ c = '\n' ∨ c = '\r' ∨ c = Char.ofNat 0x0b ∨
  c = Char.ofNat 0x0c ∨ c = Char.ofNat 0xa0 ∨ c = Char.ofNat 0xfeff ∨
  c = Char.ofNat 0x2028 ∨ c = Char.ofNat 0x2029

def isHexDigitChar (c : Char) : Bool :=
  c.isDigit ∨ ('a' ≤ c ∧ c ≤ 'f') ∨ ('A' ≤ c ∧ c ≤ 'F')

/-- The tail of a JavaScript decimal numeric literal after the mantissa:
either empty or an exponent `e`/`E`, an optional sign, and one or more
digits. -/
def jsExponentTail : List Char → Bool
  | [] => true
  | c :: rest =>
    if c = 'e' ∨ c = 'E' then
      let digits := match rest with
        | s :: r => if s = '+' ∨ s = '-' then r else rest
        | [] => rest
      ¬digits.isEmpty ∧ digits.all (·.isDigit)
    else false

/-- The mantissa of a JavaScript decimal numeric literal: `digits [. digits*]`
or `. digits+`; returns the remaining characters on success. -/
def jsDecMantissa (l : List Char) : Option (List Char) :=
  match l with
  | '.' :: rest =>
    let ds := rest.takeWhile (·.isDigit)
    if ds.isEmpty then none else some (rest.drop ds.length)
  | _ =>
    let ds := l.takeWhile (·.isDigit)
    if ds.isEmpty then none
    else
      match l.drop ds.length with
      | '.' :: r2 => some (r2.drop (r2.takeWhile (·.isDigit)).length)
      | rest => some rest

/-- An unsigned JavaScript numeric string body: `Infinity` or a decimal
literal with optional exponent. -/
def jsUnsignedBody (l : List Char) : Bool :=
  l == "Infinity".data ||
    (match jsDecMantissa l with
     | some rest => jsExponentTail rest
     | none => false)

/-- A signed JavaScript numeric string body. -/
def jsSignedBody (l : List Char) : Bool :=
  match l with
  | c :: rest => if c = '+' ∨ c = '-' then jsUnsignedBody rest else jsUnsignedBody l
  | [] => false

/-- Model of the JavaScript test `!isNaN(Number(value))` used by
`generateJSONPathFromConditions`: `Number` trims whitespace, converts the
empty string to `0`, and accepts decimal (with sign, fraction, exponent,
`Infinity`) plus unsigned hex/octal/binary literals; everything else is
`NaN`. -/
def jsIsNumeric (s : String) : Bool :=
  let trimmed := ((s.data.dropWhile jsWhitespace).reverse.dropWhile jsWhitespace).reverse
  match trimmed with
  | [] => true
  | '0' :: c :: ds =>
    if c = 'x' ∨ c = 'X' then ¬ds.isEmpty ∧ ds.all isHexDigitChar
    else if c = 'o' ∨ c = 'O' then ¬ds.isEmpty ∧ ds.all (fun d => '0' ≤ d ∧ d ≤ '7')
    else if c = 'b' ∨ c = 'B' then ¬ds.isEmpty ∧ ds.all (fun d => d = '0' ∨ d = '1')
    else jsSignedBody trimmed
  | _ => jsSignedBody trimmed

/-- `Condition` from the `QueryTool` component: one row of the visual query
builder. -/
structure Condition where
  id : String
  property : String
  operator : String
  value : String
  deriving Repr, DecidableEq

/-- `LogicOperator` from the `QueryTool` component. -/
inductive LogicOperator where
  | AND | OR
  deriving Repr, DecidableEq

/-- The per-condition rendering inside `generateJSONPathFromConditions`:
quoting of the literal, the `contains` special case, and the
`@.<property> <operator> <literal>` form. -/
def renderCondition (c : Condition) : String :=
  let formattedValue :=
    if c.operator = "=~" ∨ c.operator = "contains" then
      "\"" ++ c.value ++ "\""
    else if jsIsNumeric c.value then
      c.value
    else if c.value = "true" ∨ c.value = "false" ∨ c.value = "null" then
      c.value
    else
      "\"" ++ c.value ++ "\""
  if c.operator = "contains" then
    "@." ++ c.property ++ " =~ /" ++ c.value ++ "/i"
  else
    "@." ++ c.property ++ " " ++ c.operator ++ " " ++ formattedValue

/-- `generateJSONPathFromConditions` from the `QueryTool` component:
renders every condition, joins with ` && ` or ` || `, and wraps the result
as `$[?(...)]`; with no conditions the query is `$[*]`. -/
def generateJSONPathFromConditions (conditions : List Condition)
    (logicOperator : LogicOperator) : String :=
  if conditions.length = 0 then "$[*]"
  else
    let filterExpressions := conditions.map renderCondition
    let joinOperator := match logicOperator with
      | .AND => " && "
      | .OR => " || "
    "$[?(" ++ String.intercalate joinOperator filterExpressions ++ ")]"

/-- Scan for the closing `']` of a `\['([^']+)'\]` match: returns the body
(the characters before the first quote) and the tail after `']`, failing
when the first quote is not followed by `]` or no quote exists. -/
def scanBody : List Char → Option (List Char × List Char)
  | [] => none
  | c :: rest =>
    if c = '\'' then
      match rest with
      | ']' :: tail => some ([], tail)
      | _ => none
    else (scanBody rest).map (fun p => (c :: p.1, p.2))

theorem scanBody_length : ∀ (l b t : List Char), scanBody l = some (b, t) →
    b.length + t.length + 2 = l.length := by
  intro l
  induction l with
  | nil => intro b t h; simp [scanBody] at h
  | cons c rest ih =>
    intro b t h
    rw [scanBody.eq_def] at h
    simp only at h
    by_cases hc : c = '\''
    · rw [if_pos hc] at h
      split at h
      · rename_i tail
        simp only [Option.some.injEq, Prod.mk.injEq] at h
        obtain ⟨h1, h2⟩ := h
        subst h2
        rw [← h1]
        simp
      · simp at h
    · rw [if_neg hc] at h
      cases hsb : scanBody rest with
      | none => rw [hsb] at h; simp at h
      | some p =>
        obtain ⟨p1, p2⟩ := p
        rw [hsb] at h
        simp only [Option.map_some', Option.some.injEq, Prod.mk.injEq] at h
        obtain ⟨h1, h2⟩ := h
        subst h2
        have := ih p1 p2 hsb
        rw [← h1]
        simp only [List.length_cons]
        omega

/-- The global regex replacement
`path.replace(/\['([^']+)'\]/g, ...)` from `convertJsonPathToAppPath`:
each quoted bracket group with an all-digit body stays `[body]`, any other
quoted body becomes `.body`; unmatched characters are copied. -/
def replaceQuoted (l : List Char) : List Char :=
  match l with
  | [] => []
  | '[' :: '\'' :: rest =>
    match h : scanBody rest with
    | some (b :: bs, tail) =>
      (if (b :: bs).all (·.isDigit) then '[' :: (b :: bs) ++ [']']
       else '.' :: (b :: bs)) ++ replaceQuoted tail
    | some ([], _) => '[' :: replaceQuoted ('\'' :: rest)
    | none => '[' :: replaceQuoted ('\'' :: rest)
  | c :: rest => c :: replaceQuoted rest
termination_by l.length
decreasing_by
  · have := scanBody_length rest (b :: bs) tail h
    simp only [List.length_cons] at *
    omega
  · simp
  · simp
  · simp

/-- The `replace(/^\$/, '')` step: drop one leading dollar. -/
def stripDollar : List Char → List Char
  | '$' :: rest => rest
  | other => other

/-- The `replace(/^\.\[/, '[')` step: drop a leading dot that stands
before a bracket. -/
def cleanupDotBracket : List Char → List Char
  | '.' :: '[' :: rest => '[' :: rest
  | other => other

/-- `convertJsonPathToAppPath` from the `QueryTool` component: strip the
leading `$`, rewrite quoted bracket groups, then drop a leading dot that
ends up before a bracket. -/
def convertJsonPathToAppPath (jsonPath : String) : String :=
  String.mk (cleanupDotBracket (replaceQuoted (stripDollar jsonPath.data)))

/-- Substring test (JavaScript `String.prototype.includes`): does `needle`
occur contiguously inside `hay`? -/
def listContains (needle : List Char) : List Char → Bool
  | [] => needle.isEmpty
  | c :: t => needle.isPrefixOf (c :: t) || listContains needle t

/-! ### Character-list string primitives

The embedding works over `List Char` for all scanning/splitting operations
(`String.data` of the involved strings), mirroring the JavaScript string
methods used by the source. -/

/-- `l` starts with `sfx`. -/
def startsWithL (l sfx : List Char) : Bool :=
  sfx.isPrefixOf l

/-- `l` ends with `sfx`. -/
def endsWithL (l sfx : List Char) : Bool :=
  sfx.reverse.isPrefixOf l.reverse

/-- Split on a non-empty separator, left to right, non-overlapping
(JavaScript `String.prototype.split` with a string separator). -/
def splitOnLAux (s : Char) (st : List Char) : List Char → List Char → List (List Char)
  | [], acc => [acc.reverse]
  | c :: rest, acc =>
    if (s :: st).isPrefixOf (c :: rest) then
      acc.reverse :: splitOnLAux s st (rest.drop st.length) []
    else
      splitOnLAux s st rest (c :: acc)
termination_by l _ => l.length
decreasing_by
  · simp only [List.length_cons, List.length_drop]
    omega
  · simp

/-- Split a character list on a separator; an empty separator leaves the
list whole. -/
def splitOnL (sep l : List Char) : List (List Char) :=
  match sep with
  | [] => [l]
  | s :: st => splitOnLAux s st l []

/-- Join character lists with a separator. -/
def joinSep (sep : List Char) : List (List Char) → List Char
  | [] => []
  | [x] => x
  | x :: y :: rest => x ++ sep ++ joinSep sep (y :: rest)

/-- Trim surrounding whitespace (JavaScript `String.prototype.trim`). -/
def trimL (l : List Char) : List Char :=
  ((l.dropWhile jsWhitespace).reverse.dropWhile jsWhitespace).reverse

/-- Decimal digits of a natural number. -/
def natToChars (n : Nat) : List Char :=
  if n < 10 then [Char.ofNat (48 + n)]
  else natToChars (n / 10) ++ [Char.ofNat (48 + n % 10)]
decreasing_by
  rename_i h
  exact Nat.div_lt_self (by omega) (by omega)

/-- Parse a run of decimal digits (`parseInt` on an all-digit string). -/
def parseNatDigits (l : List Char) : Nat :=
  l.foldl (fun acc c => acc * 10 + (c.toNat - 48)) 0

/-- Parse an optionally-signed integer numeral; fails on anything else. -/
def parseIntChars (l : List Char) : Option Int :=
  match l with
  | [] => none
  | '-' :: ds => if ¬ds.isEmpty ∧ ds.all (·.isDigit) then some (-(parseNatDigits ds : Int)) else none
  | ds => if ds.all (·.isDigit) then some (parseNatDigits ds : Int) else none

/-! ### The external JSONPath evaluator, restricted to the filter fragment -/

/-- Field lookup on an ordered JSON object. -/
def lookupField (fields : List (String × JsonValue)) (k : String) : Option JsonValue :=
  (fields.find? (fun p => p.1 = k)).map (fun p => p.2)

/-- Walk a dotted property path down an element. -/
def resolveDotted (v : JsonValue) : List String → Option JsonValue
  | [] => some v
  | k :: rest =>
    match v with
    | .obj fs =>
      match lookupField fs k with
      | some v' => resolveDotted v' rest
      | none => none
    | _ => none

/-- A predicate literal: number, quoted string, boolean or null. -/
inductive QueryLit where
  | num (n : Int)
  | str (s : String)
  | bool (b : Bool)
  | null
  deriving Repr, DecidableEq

/-- Parse a predicate literal the way the filter grammar reads it:
double quotes delimit strings; `true`, `false`, `null` are keywords;
anything else must be an integer numeral. -/
def parseQueryLit (s : List Char) : Option QueryLit :=
  if startsWithL s ['"'] ∧ endsWithL s ['"'] ∧ s.length ≥ 2 then
    some (.str (String.mk ((s.drop 1).take (s.length - 2))))
  else if s = "true".data then some (.bool true)
  else if s = "false".data then some (.bool false)
  else if s = "null".data then some .null
  else (parseIntChars s).map .num

/-- Equality between a resolved value and a predicate literal. -/
def valEqLit : JsonValue → QueryLit → Bool
  | .num n, .num m => n = m
  | .str a, .str b => a = b
  | .bool a, .bool b => a = b
  | .null, .null => true
  | _, _ => false

/-- Evaluate one comparison operator between the resolved value (if any)
and the literal: `==`/`!=` are (in)equality, the four order operators
compare numbers numerically and strings lexicographically; an unresolved
value satisfies only `!=`-style disequality with nothing, i.e. nothing. -/
def compareVal (op : String) (target : Option JsonValue) (l : QueryLit) : Bool :=
  match target with
  | none => false
  | some v =>
    if op = "==" then valEqLit v l
    else if op = "!=" then ¬valEqLit v l
    else
      match v, l with
      | .num n, .num m =>
        if op = ">" then n > m
        else if op = ">=" then n ≥ m
        else if op = "<" then n < m
        else if op = "<=" then n ≤ m
        else false
      | .str a, .str b =>
        if op = ">" then b < a
        else if op = ">=" then b ≤ a
        else if op = "<" then a < b
        else if op = "<=" then a ≤ b
        else false
      | _, _ => false

/-- Resolve the dotted property path of a `@.path` reference. -/
def resolveAt (e : JsonValue) (lhs : List Char) : Option JsonValue :=
  resolveDotted e ((splitOnL ['.'] (lhs.drop 2)).map String.mk)

/-- Evaluate one predicate atom against the element under test: either
`@.path =~ /lit/i` (case-insensitive substring-as-regex) or
`@.path <op> <literal>`. -/
def evalAtom (e : JsonValue) (atom : List Char) : Except String Bool :=
  match splitOnL " =~ /".data atom with
  | [lhs, rtail] =>
    if startsWithL lhs "@.".data ∧ endsWithL rtail "/i".data then
      let pat := (rtail.take (rtail.length - 2)).map Char.toLower
      match resolveAt e lhs with
      | some (.str s) => .ok (listContains pat (s.data.map Char.toLower))
      | _ => .ok false
    else .error ("Unsupported predicate: " ++ String.mk atom)
  | _ =>
    match splitOnL [' '] atom with
    | lhs :: op :: r :: rest =>
      if startsWithL lhs "@.".data then
        let lit := joinSep [' '] (r :: rest)
        match parseQueryLit lit with
        | some l => .ok (compareVal (String.mk op) (resolveAt e lhs) l)
        | none => .error ("Unsupported literal: " ++ String.mk lit)
      else .error ("Unsupported predicate: " ++ String.mk atom)
    | _ => .error ("Unsupported predicate: " ++ String.mk atom)

/-- Evaluate a joined predicate: `&&`-groups joined by `||`, with `&&`
binding tighter. -/
def evalPred (e : JsonValue) (inner : List Char) : Except String Bool :=
  (splitOnL " || ".data inner).anyM
    (fun grp => (splitOnL " && ".data grp).allM (evalAtom e))

/-- Filter the elements of the root array, producing matched values with
their foreign bracket-notation addresses in document order. -/
def filterElems (inner : List Char) :
    List JsonValue → Nat → Except String (List (JsonValue × String))
  | [], _ => .ok []
  | x :: xs, i => do
    let b ← evalPred x inner
    let r ← filterElems inner xs (i + 1)
    .ok (if b then (x, "$[" ++ String.mk (natToChars i) ++ "]") :: r else r)

/-- Modelled from the spec: the external JSONPath evaluator consumed by
`executeQueryWithPath` (the `JSONPath` library call is not part of this
repository).  Per §4.4 of the design, a `$[?(<predicate>)]` filter
expression evaluates the predicate against each element of the root array
(`@` bound to the element under test), returns matches in document order,
and each match carries the foreign bracket-notation address produced by
the evaluator; a malformed or unsupported expression is a syntax error. -/
def executeQuery (doc : JsonValue) (query : String) :
    Except String (List (JsonValue × String)) :=
  if startsWithL query.data "$[?(".data ∧ endsWithL query.data ")]".data then
    let inner := (query.data.drop 4).take (query.data.length - 6)
    match doc with
    | .arr items => filterElems inner items 0
    | _ => .ok []
  else .error "Unsupported query"

/-- One segment of the foreign bracket-quoted notation produced by the
query evaluator: a quoted property group or a plain numeric index. -/
inductive ForeignSeg where
  | quoted (body : String)
  | plain (digits : String)
  deriving Repr, DecidableEq

/-- The textual form of one foreign segment. -/
def ForeignSeg.render : ForeignSeg → String
  | .quoted b => "['" ++ b ++ "']"
  | .plain d => "[" ++ d ++ "]"

/-- A whole foreign path body (the part after the leading dollar). -/
def renderForeignPath : List ForeignSeg → String
  | [] => ""
  | s :: rest => s.render ++ renderForeignPath rest

/-- The canonical app-notation image of one segment: an all-digit quoted
body stays an Index segment, every other quoted body becomes a Property
segment, a plain index stays an Index segment. -/
def ForeignSeg.toApp : ForeignSeg → String
  | .quoted b => if b.data.all (·.isDigit) then "[" ++ b ++ "]" else "." ++ b
  | .plain d => "[" ++ d ++ "]"

/-- The canonical app-notation path. -/
def renderAppPath : List ForeignSeg → String
  | [] => ""
  | s :: rest => s.toApp ++ renderAppPath rest

/-- Well-formedness of a foreign segment as the query evaluator produces
them: a quoted body is non-empty and quote-free; a plain index is a
non-empty digit string. -/
def ForeignSeg.WellFormed : ForeignSeg → Prop
  | .quoted b => b.data ≠ [] ∧ ∀ c ∈ b.data, c ≠ '\''
  | .plain d => d.data ≠ [] ∧ ∀ c ∈ d.data, c.isDigit = true

/-! ### DocumentViewer: highlight path tokenizer and line scan -/

/-- One tokenized segment of a highlight path, as built by the
`DocumentViewer` effect: the segment type plus its raw string value. -/
inductive PathSeg where
  | index (value : String)
  | property (value : String)
  deriving Repr, DecidableEq

/-- A character the regex class `[^.\[\]]` accepts. -/
def pathSafeChar (c : Char) : Bool :=
  ¬(c = '.' ∨ c = '[' ∨ c = ']')

theorem length_dropWhile_le' (p : Char → Bool) (l : List Char) :
    (l.dropWhile p).length ≤ l.length := by
  induction l with
  | nil => simp [List.dropWhile]
  | cons c t ih =>
    rw [List.dropWhile]
    by_cases h : p c
    · simp only [h]
      exact Nat.le_succ_of_le ih
    · simp only [h]
      simp

theorem length_takeWhile_le' (p : Char → Bool) (l : List Char) :
    (l.takeWhile p).length ≤ l.length := by
  induction l with
  | nil => simp [List.takeWhile]
  | cons c t ih =>
    rw [List.takeWhile]
    by_cases h : p c
    · simp only [h]
      simpa using ih
    · simp only [h]
      simp

/-- Try to read `\d+\]` right after an opening `[`: the digits and the tail
after the closing bracket. -/
def bracketNum (l : List Char) : Option (List Char × List Char) :=
  if (l.takeWhile (·.isDigit)).isEmpty then none
  else
    match l.drop (l.takeWhile (·.isDigit)).length with
    | ']' :: tail => some (l.takeWhile (·.isDigit), tail)
    | _ => none

theorem bracketNum_length (l ds tail : List Char) (h : bracketNum l = some (ds, tail)) :
    tail.length < l.length := by
  unfold bracketNum at h
  split at h
  · simp at h
  · split at h
    · rename_i heq
      simp only [Option.some.injEq, Prod.mk.injEq] at h
      obtain ⟨h1, h2⟩ := h
      subst h2
      have hlen := congrArg List.length heq
      simp only [List.length_drop, List.length_cons] at hlen
      have hne : ¬(l.takeWhile (fun c => c.isDigit)).isEmpty = true := by assumption
      have : (l.takeWhile (fun c => c.isDigit)).length ≥ 1 := by
        cases hl : l.takeWhile (fun c => c.isDigit) with
        | nil => rw [hl] at hne; simp at hne
        | cons a b => simp
      omega
    · simp at h

/-- The highlight-path tokenizer from `DocumentViewer`:
`highlightPath.match(/\[(\d+)\]|([^.\[\]]+)/g)` — a scan that extracts
`[digits]` groups as index segments and maximal separator-free runs as
property segments, silently skipping everything else. -/
def tokenize (l : List Char) : List PathSeg :=
  match l with
  | [] => []
  | '[' :: rest =>
    match h : bracketNum rest with
    | some (ds, tail) => .index (String.mk ds) :: tokenize tail
    | none => tokenize rest
  | c :: rest =>
    if pathSafeChar c then
      .property (String.mk (c :: rest.takeWhile pathSafeChar)) ::
        tokenize (rest.dropWhile pathSafeChar)
    else tokenize rest
termination_by l.length
decreasing_by
  · exact Nat.lt_succ_of_lt (bracketNum_length rest ds tail h)
  · simp
  · exact Nat.lt_succ_of_le (length_dropWhile_le' _ _)
  · simp

/-- Tokenize a highlight path string. -/
def tokenizePath (s : String) : List PathSeg :=
  tokenize s.data

/-- Modelled from the spec: the `PathAddress.parse` contract of §4.1 (the
repository has no such parser — the viewer only has the silent tokenizer
above).  The grammar is a sequence of `.identifier` or `[integer]` tokens
with the first token's leading dot optional; an empty identifier, a
non-numeric bracket body, or trailing/adjacent separators fail with
`MalformedPath`. -/
def parseRestSpec (l : List Char) : Except String (List PathSeg) :=
  match l with
  | [] => .ok []
  | '.' :: rest =>
    match rest.takeWhile pathSafeChar with
    | [] => .error "MalformedPath"
    | r :: rs =>
      (parseRestSpec (rest.drop (r :: rs).length)).map
        (PathSeg.property (String.mk (r :: rs)) :: ·)
  | '[' :: rest =>
    let body := rest.takeWhile (· ≠ ']')
    match h : rest.drop body.length with
    | ']' :: tail =>
      if body.isEmpty ∨ ¬body.all (·.isDigit) then .error "MalformedPath"
      else (parseRestSpec tail).map (PathSeg.index (String.mk body) :: ·)
    | _ => .error "MalformedPath"
  | _ => .error "MalformedPath"
termination_by l.length
decreasing_by
  · simp only [List.length_cons, List.length_drop]
    omega
  · have hlen := congrArg List.length h
    simp only [List.length_drop, List.length_cons] at hlen
    simp only [List.length_cons]
    omega

/-- `PathAddress.parse` modelled from the spec, on full strings. -/
def parsePathSpec (s : String) : Except String (List PathSeg) :=
  match s.data with
  | [] => .ok []
  | '.' :: _ => parseRestSpec s.data
  | '[' :: _ => parseRestSpec s.data
  | l =>
    let run := l.takeWhile pathSafeChar
    if run.isEmpty then .error "MalformedPath"
    else (parseRestSpec (l.drop run.length)).map
      (PathSeg.property (String.mk run) :: ·)

/-- The mutable scan state of the highlight line-scan effect in
`DocumentViewer` (sentinel `-1` values kept as in the source). -/
structure ScanState where
  startLine : Int
  endLine : Int
  currentSegmentIndex : Nat
  arrayIndexCounter : Nat
  objectDepth : Int
  targetDepth : Int
  trackingArrayDepth : Int
  inTargetStructure : Bool
  deriving Repr, DecidableEq

/-- The initial scan state. -/
def ScanState.init : ScanState :=
  ⟨-1, -1, 0, 0, 0, 0, -1, false⟩

/-- The opening-bracket block of the scan loop (lines 105–137 of the
effect): array tracking for index segments, element counting, and the
depth increment. -/
def stepOpen (segs : List PathSeg) (lineNo : Nat) (trimmed : List Char) (st : ScanState) :
    ScanState :=
  if endsWithL trimmed ['\x7b'] || endsWithL trimmed ['['] then
    let isArray := endsWithL trimmed ['[']
    match segs.get? st.currentSegmentIndex with
    | some (.index v) =>
      if isArray ∧ st.trackingArrayDepth = -1 then
        { st with arrayIndexCounter := 0,
                  trackingArrayDepth := st.objectDepth,
                  objectDepth := st.objectDepth + 1 }
      else if st.trackingArrayDepth ≠ -1 ∧
              st.objectDepth = st.trackingArrayDepth + 1 ∧ trimmed = ['\x7b'] then
        if st.arrayIndexCounter = parseNatDigits v.data then
          let st' := { st with currentSegmentIndex := st.currentSegmentIndex + 1,
                               trackingArrayDepth := -1 }
          if st'.currentSegmentIndex = segs.length then
            { st' with startLine := lineNo,
                       targetDepth := st.objectDepth + 1,
                       inTargetStructure := true,
                       objectDepth := st.objectDepth + 1 }
          else
            { st' with objectDepth := st.objectDepth + 1 }
        else
          { st with arrayIndexCounter := st.arrayIndexCounter + 1,
                    objectDepth := st.objectDepth + 1 }
      else
        { st with objectDepth := st.objectDepth + 1 }
    | _ => { st with objectDepth := st.objectDepth + 1 }
  else st

/-- The property-match block of the scan loop (lines 140–161): returns the
updated state and whether the loop breaks. -/
def stepProperty (segs : List PathSeg) (lineNo : Nat) (line trimmed : List Char)
    (st : ScanState) : ScanState × Bool :=
  match segs.get? st.currentSegmentIndex with
  | some (.property v) =>
    if listContains ('"' :: v.data ++ ['"']) line ∧ listContains [':'] trimmed then
      if endsWithL trimmed ['\x7b'] || endsWithL trimmed ['['] then
        ({ st with startLine := lineNo,
                   targetDepth := st.objectDepth + 1,
                   inTargetStructure := true,
                   currentSegmentIndex := st.currentSegmentIndex + 1,
                   objectDepth := st.objectDepth + 1 }, false)
      else if listContains [':'] trimmed then
        let st' := { st with currentSegmentIndex := st.currentSegmentIndex + 1 }
        if st'.currentSegmentIndex = segs.length then
          ({ st' with startLine := lineNo, endLine := lineNo }, true)
        else (st', false)
      else (st, false)
    else (st, false)
  | _ => (st, false)

/-- The closing-bracket block of the scan loop (lines 164–176): range end
detection, depth decrement, and array-tracking reset. -/
def stepClose (lineNo : Nat) (trimmed : List Char) (st : ScanState) : ScanState × Bool :=
  if startsWithL trimmed ['\x7d'] || startsWithL trimmed [']'] then
    if st.inTargetStructure ∧ st.objectDepth = st.targetDepth then
      ({ st with endLine := lineNo }, true)
    else
      if st.trackingArrayDepth ≠ -1 ∧ st.objectDepth - 1 ≤ st.trackingArrayDepth then
        ({ st with objectDepth := st.objectDepth - 1, trackingArrayDepth := -1 }, false)
      else ({ st with objectDepth := st.objectDepth - 1 }, false)
  else (st, false)

/-- One iteration of the scan loop over a line. -/
def processLine (segs : List PathSeg) (lineNo : Nat) (line : List Char) (st : ScanState) :
    ScanState × Bool :=
  if (stepProperty segs lineNo line (trimL line) (stepOpen segs lineNo (trimL line) st)).2
  then
    ((stepProperty segs lineNo line (trimL line) (stepOpen segs lineNo (trimL line) st)).1,
     true)
  else
    stepClose lineNo (trimL line)
      (stepProperty segs lineNo line (trimL line) (stepOpen segs lineNo (trimL line) st)).1

/-- The scan loop over all lines, stopping at a break. -/
def scanLines (segs : List PathSeg) : List (List Char) → Nat → ScanState → ScanState
  | [], _, st => st
  | line :: rest, lineNo, st =>
    if (processLine segs lineNo line st).2 then (processLine segs lineNo line st).1
    else scanLines segs rest (lineNo + 1) (processLine segs lineNo line st).1

/-- The final decoration step after the scan loop: the missing-end fixup
(`endLine := startLine` when only a start was found), then a range exactly
when both ends are set. -/
def highlightResult (st : ScanState) : Option (Nat × Nat) :=
  if st.startLine ≠ -1 ∧
      (if st.startLine ≠ -1 ∧ st.endLine = -1 then st.startLine else st.endLine) ≠ -1 then
    some (st.startLine.toNat,
      (if st.startLine ≠ -1 ∧ st.endLine = -1 then st.startLine else st.endLine).toNat)
  else none

/-- The whole highlight line-scan of `DocumentViewer`: tokenize the path,
scan the serialized text, apply the missing-end fixup, and return the
1-based inclusive line range, or nothing when no start line was found. -/
def computeHighlightRange (text highlightPath : String) : Option (Nat × Nat) :=
  highlightResult
    (scanLines (tokenizePath highlightPath) (splitOnL ['\n'] text.data) 1 ScanState.init)

/-! ## Claim theorems -/

/-- C1: compiling the structured condition (propertyPath `price`, operator
gt, literal `100`) with the AND combinator yields exactly
`$[?(@.price > 100)]`; executing that expression against the two-element
document whose prices are 150 and 50 returns exactly one match — the first
element — and its address converts to `[0]`. -/
theorem claim_C1_query_compile_equivalence : ∀ cid : String,
    generateJSONPathFromConditions [⟨cid, "price", ">", "100"⟩] .AND =
      "$[?(@.price > 100)]" ∧
    executeQuery (.arr [.obj [("price", .num 150)], .obj [("price", .num 50)]])
        "$[?(@.price > 100)]" =
      .ok [(.obj [("price", .num 150)], "$[0]")] ∧
    convertJsonPathToAppPath "$[0]" = "[0]" := by
  intro cid
  refine ⟨rfl, ?_, ?_⟩
  · simp [executeQuery, startsWithL, endsWithL, List.isPrefixOf, filterElems, evalPred,
      splitOnL, splitOnLAux, evalAtom, resolveAt, resolveDotted, lookupField, parseQueryLit,
      parseIntChars, parseNatDigits, compareVal, natToChars, joinSep, List.anyM, List.allM,
      Bind.bind, Except.bind, Pure.pure, Except.pure]
  · simp [convertJsonPathToAppPath, replaceQuoted, stripDollar, cleanupDotBracket]

/-- C3: on the pretty-printed text with key `a` holding the object with key
`b`, the range mapper returns lines 2 through 4 for address `a` (the
`"a":` line through its matching closing brace) and exactly line 3 for
address `a.b` (the `"b": 1` line). -/
theorem claim_C3_range_mapping :
    computeHighlightRange "\x7b\n  \"a\": \x7b\n    \"b\": 1\n  \x7d\n\x7d" "a" =
      some (2, 4) ∧
    computeHighlightRange "\x7b\n  \"a\": \x7b\n    \"b\": 1\n  \x7d\n\x7d" "a.b" =
      some (3, 3) := by
  constructor <;>
    simp [computeHighlightRange, splitOnL, splitOnLAux, tokenizePath, tokenize, bracketNum,
      pathSafeChar, scanLines, processLine, trimL, jsWhitespace, stepOpen, stepProperty,
      stepClose, startsWithL, endsWithL, List.isPrefixOf, listContains, ScanState.init,
      highlightResult]

/-- C4 counterexample: for the text whose object `a` contains only key `c`,
the address `a.b` — whose final property `b` is absent from the matched
subtree — does NOT map to "no range": the scan returns the partial range
2–4 of the matched ancestor `a`, contradicting the claim. -/
theorem claim_C4_counterexample :
    computeHighlightRange "\x7b\n  \"a\": \x7b\n    \"c\": 1\n  \x7d\n\x7d" "a.b" =
      some (2, 4) ∧
    computeHighlightRange "\x7b\n  \"a\": \x7b\n    \"c\": 1\n  \x7d\n\x7d" "a.b" ≠
      none := by
  constructor
  · simp [computeHighlightRange, splitOnL, splitOnLAux, tokenizePath, tokenize, bracketNum,
      pathSafeChar, scanLines, processLine, trimL, jsWhitespace, stepOpen, stepProperty,
      stepClose, startsWithL, endsWithL, List.isPrefixOf, listContains, ScanState.init,
      highlightResult]
  · simp [computeHighlightRange, splitOnL, splitOnLAux, tokenizePath, tokenize, bracketNum,
      pathSafeChar, scanLines, processLine, trimL, jsWhitespace, stepOpen, stepProperty,
      stepClose, startsWithL, endsWithL, List.isPrefixOf, listContains, ScanState.init,
      highlightResult]

/-- C8 counterexample: on the path text `a..b`, which contains adjacent
separators, the spec's parser contract demands a `MalformedPath` error, but
the code's tokenizer silently produces the segment list `[a, b]` — it has
no error outcome at all. -/
theorem claim_C8_counterexample :
    parsePathSpec "a..b" = .error "MalformedPath" ∧
    tokenizePath "a..b" = [.property "a", .property "b"] := by
  constructor
  · simp [parsePathSpec, parseRestSpec, pathSafeChar, Except.map]
  · simp [tokenizePath, tokenize, bracketNum, pathSafeChar]

/-- C2: for a comparison-operator condition the literal is emitted
unquoted exactly when it passes the JavaScript numeric test or is one of
the keywords `true`, `false`, `null`, and double-quoted otherwise; a
`contains` condition renders as a case-insensitive regex match on the
property. -/
theorem claim_C2_literal_quoting :
    (∀ c : Condition, c.operator ∈ (["==", "!=", ">", ">=", "<", "<="] : List String) →
      renderCondition c =
        "@." ++ c.property ++ " " ++ c.operator ++ " " ++
          (if jsIsNumeric c.value ∨ c.value = "true" ∨ c.value = "false" ∨ c.value = "null"
           then c.value else "\"" ++ c.value ++ "\"")) ∧
    (∀ c : Condition, c.operator = "contains" →
      renderCondition c = "@." ++ c.property ++ " =~ /" ++ c.value ++ "/i") := by
  constructor
  · intro c hop
    obtain ⟨cid, cprop, cop, cval⟩ := c
    simp only [List.mem_cons, List.mem_singleton, List.not_mem_nil, or_false] at hop
    unfold renderCondition
    rcases hop with h | h | h | h | h | h <;> subst h <;>
      simp only [] <;>
      by_cases h1 : jsIsNumeric cval <;>
      by_cases h2 : cval = "true" <;>
      by_cases h3 : cval = "false" <;>
      by_cases h4 : cval = "null" <;>
      simp [h1, h2, h3, h4]
  · intro c hop
    obtain ⟨cid, cprop, cop, cval⟩ := c
    simp only at hop
    subst hop
    simp [renderCondition]

/-- C2 witness: a numeric literal stays unquoted under `>` and a `contains`
condition renders as the case-insensitive regex form. -/
theorem claim_C2_literal_quoting_witness :
    renderCondition ⟨"1", "price", ">", "100"⟩ = "@.price > 100" ∧
    renderCondition ⟨"2", "name", "contains", "foo"⟩ = "@.name =~ /foo/i" := by
  constructor
  · have h := claim_C2_literal_quoting.1 ⟨"1", "price", ">", "100"⟩ (by simp)
    rw [h]
    simp [jsIsNumeric, jsWhitespace, jsSignedBody, jsUnsignedBody, jsDecMantissa,
      jsExponentTail]
  · exact claim_C2_literal_quoting.2 ⟨"2", "name", "contains", "foo"⟩ rfl

/-- Folding default-value assignments over fresh distinct names appends one
field per property in order. -/
theorem foldl_objSet (props : List PropertySchema) :
    ∀ acc : List (String × JsonValue),
      (∀ p ∈ props, ∀ q ∈ acc, q.1 ≠ p.name) →
      ((props.map PropertySchema.name).Nodup) →
      props.foldl (fun a p => objSet a p.name (getDefaultValue p.type)) acc =
        acc ++ props.map (fun p => (p.name, getDefaultValue p.type)) := by
  induction props with
  | nil => intro acc _ _; simp
  | cons p ps ih =>
    intro acc hd hnd
    simp only [List.foldl_cons, List.map_cons]
    have hfresh : ¬ acc.any (fun q => decide (q.1 = p.name)) = true := by
      simp only [List.any_eq_true, decide_eq_true_eq]
      rintro ⟨q, hq, he⟩
      exact hd p (by simp) q hq he
    have hset : objSet acc p.name (getDefaultValue p.type) =
        acc ++ [(p.name, getDefaultValue p.type)] := by
      simp only [objSet]
      rw [if_neg hfresh]
    rw [hset]
    rw [ih (acc ++ [(p.name, getDefaultValue p.type)]) ?fresh ?nodup]
    · simp
    case fresh =>
      intro p' hp' q hq
      rcases List.mem_append.mp hq with h | h
      · exact hd p' (by simp [hp']) q h
      · simp only [List.mem_singleton] at h
        subst h
        simp only [List.map_cons, List.nodup_cons] at hnd
        intro hcontra
        simp only at hcontra
        apply hnd.1
        rw [hcontra]
        exact List.mem_map_of_mem PropertySchema.name hp'
    case nodup =>
      simp only [List.map_cons, List.nodup_cons] at hnd
      exact hnd.2

/-- Re-inferring a schema from per-property default values reproduces every
name and type tag. -/
theorem inferProps_defaults (props : List PropertySchema) :
    (inferProps (props.map (fun p => (p.name, getDefaultValue p.type)))).map nameType =
      props.map nameType := by
  induction props with
  | nil => simp [inferProps]
  | cons p ps ih =>
    obtain ⟨n, t, rq, ait, os⟩ := p
    rw [List.map_cons, List.map_cons]
    generalize hL : List.map (fun p : PropertySchema => (p.name, getDefaultValue p.type)) ps = L
    rw [hL] at ih
    cases t <;>
      simp only [PropertySchema.name, PropertySchema.type, getDefaultValue, inferProps,
        List.map_cons, nameType, inferType, ih]

/-- C9: building the skeleton object that assigns every property of a
schema its default value (string to empty string, number to 0, boolean to
false, null to null, array to empty array, object to empty object) and
re-inferring a schema from it yields exactly the original names and type
tags, for every schema with distinct property names. -/
theorem claim_C9_schema_default_roundtrip (schema : ObjectSchema)
    (hnd : (schema.properties.map PropertySchema.name).Nodup) :
    (inferObjectSchema (createDefaultObject schema)).properties.map nameType =
      schema.properties.map nameType := by
  unfold inferObjectSchema createDefaultObject
  rw [foldl_objSet _ [] (by simp) hnd]
  simpa using inferProps_defaults schema.properties

/-- C9 witness: the roundtrip at a two-property schema. -/
theorem claim_C9_schema_default_roundtrip_witness :
    (((⟨[.mk "a" .number true none none, .mk "b" .string true none none]⟩ :
        ObjectSchema).properties.map PropertySchema.name).Nodup) ∧
    (inferObjectSchema (createDefaultObject
        ⟨[.mk "a" .number true none none, .mk "b" .string true none none]⟩)).properties.map
          nameType =
      (⟨[.mk "a" .number true none none, .mk "b" .string true none none]⟩ :
        ObjectSchema).properties.map nameType := by
  refine ⟨?_, claim_C9_schema_default_roundtrip _ ?_⟩ <;>
    simp [PropertySchema.name]

/-- C10: `parseJson` is total for every deserializer outcome and every
input: it returns either success carrying the parsed value and no error,
or failure carrying no data and the human-readable message derived from
the caught exception. -/
theorem claim_C10_parse_total (deser : String → Except JsError JsonValue) (s : String) :
    (∃ v, deser s = .ok v ∧ parseJson deser s = ⟨true, some v, none⟩) ∨
    (∃ e, deser s = .error e ∧
      parseJson deser s = ⟨false, none, some (jsErrorMessage e)⟩) := by
  cases h : deser s with
  | ok v => exact Or.inl ⟨v, rfl, by simp [parseJson, h]⟩
  | error e => exact Or.inr ⟨e, rfl, by simp [parseJson, h]⟩


/-- Keeping the last 50 of a trimmed-then-extended list equals keeping
the last 50 of the extended original. -/
theorem lastN_append (xs ys : List VersionHistoryItem) :
    (xs.drop (xs.length - 50) ++ ys).drop ((xs.drop (xs.length - 50) ++ ys).length - 50) =
      (xs ++ ys).drop ((xs ++ ys).length - 50) := by
  by_cases hn : xs.length ≤ 50
  · have h0 : xs.length - 50 = 0 := by omega
    simp [h0]
  · have hD : (xs.drop (xs.length - 50)).length = 50 := by
      simp only [List.length_drop]
      omega
    have h1 : (xs.drop (xs.length - 50) ++ ys).length - 50 = ys.length := by
      simp only [List.length_append, hD]
      omega
    have h2 : (xs ++ ys).length - 50 = ys.length + (xs.length - 50) := by
      simp only [List.length_append]
      omega
    rw [h1, h2]
    have h3 : (xs ++ ys).drop (xs.length - 50) = xs.drop (xs.length - 50) ++ ys :=
      List.drop_append_of_le_length (by omega)
    calc (xs.drop (xs.length - 50) ++ ys).drop ys.length
        = ((xs ++ ys).drop (xs.length - 50)).drop ys.length := by rw [h3]
      _ = (xs ++ ys).drop ((xs.length - 50) + ys.length) := List.drop_drop _ _ _
      _ = (xs ++ ys).drop (ys.length + (xs.length - 50)) := by rw [Nat.add_comm]

/-- `trimHistory` always keeps the final 50 entries. -/
theorem trimHistory_eq_drop (l : List VersionHistoryItem) :
    trimHistory l = l.drop (l.length - 50) := by
  unfold trimHistory MAX_HISTORY_LENGTH
  by_cases hgt : l.length > 50
  · rw [if_pos hgt]
  · rw [if_neg hgt]
    have h0 : l.length - 50 = 0 := by omega
    simp [h0]

/-- One append from a cursor-at-end state keeps the last 50 of the
extended history, cursor at the last index. -/
theorem appendSnapshot_inv (h : List VersionHistoryItem) (v : VersionHistoryItem) :
    appendSnapshot (h, (h.length : Int) - 1) v =
      ((h ++ [v]).drop ((h ++ [v]).length - 50),
       (((h ++ [v]).drop ((h ++ [v]).length - 50)).length : Int) - 1) := by
  unfold appendSnapshot
  cases h with
  | nil => simp [trimHistory_eq_drop]
  | cons a t =>
    have hpos : (((a :: t).length : Int) - 1) ≥ 0 := by
      simp only [List.length_cons]
      omega
    have htoNat : ((((a :: t).length : Int) - 1).toNat + 1) = (a :: t).length := by
      simp only [List.length_cons]
      omega
    simp only [if_pos hpos, htoNat, List.take_length, trimHistory_eq_drop]

/-- Folding appends from a cursor-at-end state keeps the last 50 of the
concatenation, cursor at the last index. -/
theorem appendAll_inv (snaps : List VersionHistoryItem) :
    ∀ h : List VersionHistoryItem, h.length ≤ 50 →
      appendAll (h, (h.length : Int) - 1) snaps =
        ((h ++ snaps).drop ((h ++ snaps).length - 50),
         (((h ++ snaps).drop ((h ++ snaps).length - 50)).length : Int) - 1) := by
  induction snaps with
  | nil =>
    intro h hle
    unfold appendAll
    simp only [List.foldl_nil, List.append_nil]
    simp [show h.length - 50 = 0 from by omega]
  | cons v vs ih =>
    intro h hle
    unfold appendAll at *
    simp only [List.foldl_cons]
    rw [appendSnapshot_inv h v]
    have hlen : ((h ++ [v]).drop ((h ++ [v]).length - 50)).length ≤ 50 := by
      simp only [List.length_drop]
      omega
    rw [ih _ hlen]
    rw [lastN_append (h ++ [v]) vs]
    simp

/-- C5: appending 60 snapshots to the empty history (capacity 50) leaves
exactly the 50 most recent snapshots — the oldest 10 evicted — with the
cursor at the last index, 49. -/
theorem claim_C5_history_bound (snaps : List VersionHistoryItem)
    (hsix : snaps.length = 60) :
    appendAll ([], -1) snaps = (snaps.drop 10, 49) := by
  have hinv := appendAll_inv snaps [] (by simp)
  simp only [List.length_nil, List.nil_append, Nat.cast_zero, zero_sub] at hinv
  rw [hsix] at hinv
  have hlen : (snaps.drop 10).length = 50 := by
    simp [List.length_drop, hsix]
  rw [show (60 : Nat) - 50 = 10 from rfl] at hinv
  rw [hlen] at hinv
  simpa using hinv

/-- C5 witness: the bound at a concrete list of 60 snapshots. -/
theorem claim_C5_history_bound_witness :
    (((List.range 60).map (fun i => VersionHistoryItem.mk "" (Int.ofNat i) "Edit")).length
        = 60) ∧
    appendAll ([], -1)
        ((List.range 60).map (fun i => VersionHistoryItem.mk "" (Int.ofNat i) "Edit")) =
      (((List.range 60).map (fun i => VersionHistoryItem.mk "" (Int.ofNat i) "Edit")).drop 10,
       49) :=
  ⟨by simp, claim_C5_history_bound _ (by simp)⟩



/-- C6: for every app state with an in-range cursor and re-parseable
snapshots, undo is a no-op at cursor 0 and otherwise decrements the cursor
and displays the parsed snapshot at the new cursor; redo is a no-op at
cursor length-1 and otherwise increments the cursor and displays the
parsed snapshot at the new cursor. -/
theorem claim_C6_undo_redo (deser : String → Except JsError JsonValue) (st : AppState)
    (hlo : 0 ≤ st.currentVersionIndex)
    (hhi : st.currentVersionIndex < (st.versionHistory.length : Int))
    (hparse : ∀ item ∈ st.versionHistory, ∃ v, deser item.content = .ok v) :
    ((st.currentVersionIndex = 0 → handleUndo deser st = some st) ∧
     (0 < st.currentVersionIndex → ∃ item v,
        st.versionHistory.get? (st.currentVersionIndex - 1).toNat = some item ∧
        deser item.content = .ok v ∧
        handleUndo deser st = some { st with
          document := ⟨item.content, some v, true, none⟩,
          currentVersionIndex := st.currentVersionIndex - 1 })) ∧
    ((st.currentVersionIndex = (st.versionHistory.length : Int) - 1 →
        handleRedo deser st = some st) ∧
     (st.currentVersionIndex < (st.versionHistory.length : Int) - 1 → ∃ item v,
        st.versionHistory.get? (st.currentVersionIndex + 1).toNat = some item ∧
        deser item.content = .ok v ∧
        handleRedo deser st = some { st with
          document := ⟨item.content, some v, true, none⟩,
          currentVersionIndex := st.currentVersionIndex + 1 })) := by
  refine ⟨⟨?_, ?_⟩, ⟨?_, ?_⟩⟩
  · intro h0
    unfold handleUndo
    rw [if_neg (by omega)]
  · intro hpos
    have hlt : (st.currentVersionIndex - 1).toNat < st.versionHistory.length := by
      omega
    obtain ⟨item, hitem⟩ : ∃ item,
        st.versionHistory.get? (st.currentVersionIndex - 1).toNat = some item := by
      rw [List.get?_eq_get hlt]
      exact ⟨_, rfl⟩
    obtain ⟨v, hv⟩ := hparse item (List.get?_mem hitem)
    refine ⟨item, v, hitem, hv, ?_⟩
    unfold handleUndo
    rw [if_pos (by omega)]
    simp only [hitem, parseJson, hv]
  · intro hend
    unfold handleRedo
    rw [if_neg (by omega)]
  · intro hlt1
    have hlt : (st.currentVersionIndex + 1).toNat < st.versionHistory.length := by
      omega
    obtain ⟨item, hitem⟩ : ∃ item,
        st.versionHistory.get? (st.currentVersionIndex + 1).toNat = some item := by
      rw [List.get?_eq_get hlt]
      exact ⟨_, rfl⟩
    obtain ⟨v, hv⟩ := hparse item (List.get?_mem hitem)
    refine ⟨item, v, hitem, hv, ?_⟩
    unfold handleRedo
    rw [if_pos (by omega)]
    simp only [hitem, parseJson, hv]

/-- C6 witness: undo from cursor 1 of a two-item history. -/
theorem claim_C6_undo_redo_witness :
    (0 ≤ (1 : Int)) ∧
    ((1 : Int) < (([⟨"x", 0, "a"⟩, ⟨"y", 1, "b"⟩] :
        List VersionHistoryItem).length : Int)) ∧
    ∃ item v,
      ([⟨"x", 0, "a"⟩, ⟨"y", 1, "b"⟩] :
          List VersionHistoryItem).get? ((1 : Int) - 1).toNat = some item ∧
      (fun _ : String => (Except.ok JsonValue.null : Except JsError JsonValue))
          item.content = .ok v ∧
      handleUndo (fun _ => .ok .null)
          ⟨⟨"", none, false, none⟩, [⟨"x", 0, "a"⟩, ⟨"y", 1, "b"⟩], 1⟩ =
        some ⟨⟨item.content, some v, true, none⟩, [⟨"x", 0, "a"⟩, ⟨"y", 1, "b"⟩], 0⟩ := by
  refine ⟨by norm_num, by norm_num, ?_⟩
  have h := (claim_C6_undo_redo (fun _ => .ok .null)
      ⟨⟨"", none, false, none⟩, [⟨"x", 0, "a"⟩, ⟨"y", 1, "b"⟩], 1⟩
      (by norm_num) (by norm_num)
      (fun item _ => ⟨.null, rfl⟩)).1.2 (by norm_num)
  exact h



/-- For a property segment at the cursor, the opening-bracket block only
bumps the depth. -/
theorem stepOpen_pres (name : String) (rest : List PathSeg) (lineNo : Nat)
    (trimmed : List Char) (st : ScanState) (h0 : st.currentSegmentIndex = 0) :
    stepOpen (.property name :: rest) lineNo trimmed st =
      { st with objectDepth :=
          if endsWithL trimmed ['\x7b'] || endsWithL trimmed ['['] then st.objectDepth + 1
          else st.objectDepth } := by
  obtain ⟨s1, s2, s3, s4, s5, s6, s7, s8⟩ := st
  simp only at h0
  subst h0
  by_cases hb : (endsWithL trimmed ['\x7b'] || endsWithL trimmed ['[']) = true
  · simp [stepOpen, hb]
  · simp [stepOpen, hb]

/-- A property segment whose quoted name is absent from the line leaves
the state unchanged and does not break. -/
theorem stepProperty_unmatched (name : String) (rest : List PathSeg) (lineNo : Nat)
    (line trimmed : List Char) (st : ScanState) (h0 : st.currentSegmentIndex = 0)
    (hline : listContains ('"' :: name.data ++ ['"']) line = false) :
    stepProperty (.property name :: rest) lineNo line trimmed st = (st, false) := by
  unfold stepProperty
  rw [h0]
  simp only [List.get?]
  rw [if_neg]
  rintro ⟨h1, h2⟩
  rw [hline] at h1
  simp at h1

/-- Outside the target structure, the closing-bracket block never breaks
and keeps cursor, range and target flags. -/
theorem stepClose_pres (lineNo : Nat) (trimmed : List Char) (st : ScanState)
    (ht : st.inTargetStructure = false) :
    (stepClose lineNo trimmed st).2 = false ∧
    (stepClose lineNo trimmed st).1.currentSegmentIndex = st.currentSegmentIndex ∧
    (stepClose lineNo trimmed st).1.startLine = st.startLine ∧
    (stepClose lineNo trimmed st).1.endLine = st.endLine ∧
    (stepClose lineNo trimmed st).1.inTargetStructure = false := by
  obtain ⟨s1, s2, s3, s4, s5, s6, s7, s8⟩ := st
  simp only at ht
  subst ht
  unfold stepClose
  by_cases hb : (startsWithL trimmed ['\x7d'] || startsWithL trimmed [']']) = true
  · rw [if_pos hb]
    rw [if_neg (by simp)]
    split_ifs <;> simp
  · rw [if_neg hb]
    simp

/-- A line not containing the quoted first property preserves the
nothing-found invariant. -/
theorem processLine_unmatched (name : String) (rest : List PathSeg) (lineNo : Nat)
    (line : List Char) (st : ScanState) (h0 : st.currentSegmentIndex = 0)
    (hs : st.startLine = -1) (he : st.endLine = -1) (ht : st.inTargetStructure = false)
    (hline : listContains ('"' :: name.data ++ ['"']) line = false) :
    (processLine (.property name :: rest) lineNo line st).2 = false ∧
    (processLine (.property name :: rest) lineNo line st).1.currentSegmentIndex = 0 ∧
    (processLine (.property name :: rest) lineNo line st).1.startLine = -1 ∧
    (processLine (.property name :: rest) lineNo line st).1.endLine = -1 ∧
    (processLine (.property name :: rest) lineNo line st).1.inTargetStructure = false := by
  unfold processLine
  rw [stepOpen_pres name rest lineNo (trimL line) st h0]
  rw [stepProperty_unmatched name rest lineNo line (trimL line) _ (by simp [h0]) hline]
  simp only [Bool.false_eq_true, if_false]
  have hclose := stepClose_pres lineNo (trimL line)
      { st with objectDepth :=
          if endsWithL (trimL line) ['\x7b'] || endsWithL (trimL line) ['['] then
            st.objectDepth + 1
          else st.objectDepth } (by simp [ht])
  refine ⟨hclose.1, ?_, ?_, ?_, hclose.2.2.2.2⟩
  · rw [hclose.2.1]; simp [h0]
  · rw [hclose.2.2.1]; simp [hs]
  · rw [hclose.2.2.2.1]; simp [he]

/-- Scanning lines that never contain the quoted first property leaves
the start line unset. -/
theorem scanLines_unmatched (name : String) (rest : List PathSeg) :
    ∀ (lines : List (List Char)) (lineNo : Nat) (st : ScanState),
      st.currentSegmentIndex = 0 → st.startLine = -1 → st.endLine = -1 →
      st.inTargetStructure = false →
      (∀ line ∈ lines, listContains ('"' :: name.data ++ ['"']) line = false) →
      (scanLines (.property name :: rest) lines lineNo st).startLine = -1 := by
  intro lines
  induction lines with
  | nil => intro lineNo st _ hs _ _ _; simpa [scanLines] using hs
  | cons line ls ih =>
    intro lineNo st h0 hs he ht hall
    have hp := processLine_unmatched name rest lineNo line st h0 hs he ht
      (hall line (by simp))
    unfold scanLines
    rw [hp.1]
    simp only [Bool.false_eq_true, if_false]
    exact ih (lineNo + 1) _ hp.2.1 hp.2.2.1 hp.2.2.2.1 hp.2.2.2.2
      (fun l hl => hall l (by simp [hl]))

/-- C4 (amended): when the address's first property occurs (quoted) on no
line of the text, the scan never sets a start line and the mapper returns
no range — no error and no partial range.  (As stated the claim is false:
see the counterexample, where a matched ancestor with an absent final
property yields the ancestor's partial range.) -/
theorem claim_C4_no_range_when_unmatched (text path : String) (name : String)
    (rest : List PathSeg)
    (hseg : tokenizePath path = PathSeg.property name :: rest)
    (habsent : ∀ line ∈ splitOnL ['\n'] text.data,
      listContains ('"' :: name.data ++ ['"']) line = false) :
    computeHighlightRange text path = none := by
  unfold computeHighlightRange
  rw [hseg]
  have hscan := scanLines_unmatched name rest (splitOnL ['\n'] text.data) 1 ScanState.init
    rfl rfl rfl rfl habsent
  simp [highlightResult, hscan]

/-- C4 witness: address `a.b` over a text without `\"a\"` maps to no
range. -/
theorem claim_C4_witness :
    (tokenizePath "a.b" = PathSeg.property "a" :: [PathSeg.property "b"]) ∧
    (∀ line ∈ splitOnL ['\n'] ("\x7b\n  \"x\": 1\n\x7d" : String).data,
      listContains ('"' :: ("a" : String).data ++ ['"']) line = false) ∧
    computeHighlightRange "\x7b\n  \"x\": 1\n\x7d" "a.b" = none := by
  refine ⟨?_, ?_, ?_⟩
  · simp [tokenizePath, tokenize, bracketNum, pathSafeChar]
  · intro line hl
    simp [splitOnL, splitOnLAux, List.isPrefixOf] at hl
    rcases hl with rfl | rfl | rfl <;> decide
  · refine claim_C4_no_range_when_unmatched _ _ "a" [PathSeg.property "b"] ?_ ?_
    · simp [tokenizePath, tokenize, bracketNum, pathSafeChar]
    · intro line hl
      simp [splitOnL, splitOnLAux, List.isPrefixOf] at hl
      rcases hl with rfl | rfl | rfl <;> decide



/-- Dropping-while equals dropping the matched run's length. -/
theorem dropWhile_eq_drop_len (p : Char → Bool) (l : List Char) :
    l.dropWhile p = l.drop (l.takeWhile p).length := by
  induction l with
  | nil => simp
  | cons c t ih =>
    by_cases h : p c
    · simp [List.dropWhile, List.takeWhile, h, ih]
    · simp [List.dropWhile, List.takeWhile, h]

/-- A fully-safe run followed by a bad head is exactly what the greedy
run-scan takes and drops. -/
theorem takeWhile_all_append (cs rest : List Char)
    (hsafe : ∀ c ∈ cs, pathSafeChar c = true)
    (hrest : rest = [] ∨ ∃ d t, rest = d :: t ∧ pathSafeChar d = false) :
    (cs ++ rest).takeWhile pathSafeChar = cs ∧
    (cs ++ rest).dropWhile pathSafeChar = rest := by
  induction cs with
  | nil =>
    rcases hrest with rfl | ⟨d, t, rfl, hd⟩
    · simp
    · simp [List.takeWhile, List.dropWhile, hd]
  | cons c cs' ih =>
    have hc := hsafe c (by simp)
    have := ih (fun x hx => hsafe x (by simp [hx]))
    simp [List.takeWhile, List.dropWhile, hc, this.1, this.2]

/-- The tokenizer skips a dot (separators match neither alternative). -/
theorem tokenize_dot (rest : List Char) : tokenize ('.' :: rest) = tokenize rest := by
  simp [tokenize, pathSafeChar]

/-- The tokenizer skips a stray closing bracket. -/
theorem tokenize_rbracket (rest : List Char) : tokenize (']' :: rest) = tokenize rest := by
  simp [tokenize, pathSafeChar]

/-- When no numeric bracket group starts here, the tokenizer skips the
opening bracket and rescans after it. -/
theorem tokenize_lbracket_none (rest : List Char) (h : bracketNum rest = none) :
    tokenize ('[' :: rest) = tokenize rest := by
  simp only [tokenize]
  split
  · rename_i ds tail heq
    rw [h] at heq
    cases heq
  · rfl

/-- At a safe character the tokenizer emits the maximal safe run as a
property segment. -/
theorem tokenize_cons_safe (c : Char) (t : List Char) (hc : pathSafeChar c = true) :
    tokenize (c :: t) =
      .property (String.mk (c :: t.takeWhile pathSafeChar)) ::
        tokenize (t.dropWhile pathSafeChar) := by
  rw [tokenize.eq_def]
  split
  · rename_i heq
    cases heq
  · rename_i l rest heq
    injection heq with h1 h2
    rw [h1] at hc
    simp [pathSafeChar] at hc
  · rename_i l c' rest hne heq
    injection heq with h1 h2
    subst h1
    subst h2
    rw [if_pos hc]

/-- A whole safe run followed by a separator-like head tokenizes to one
property segment. -/
theorem tokenize_run (cs rest : List Char) (hne : cs ≠ [])
    (hsafe : ∀ c ∈ cs, pathSafeChar c = true)
    (hrest : rest = [] ∨ ∃ d t, rest = d :: t ∧ pathSafeChar d = false) :
    tokenize (cs ++ rest) = .property (String.mk cs) :: tokenize rest := by
  cases cs with
  | nil => exact absurd rfl hne
  | cons c cs' =>
    have hc := hsafe c (by simp)
    have hsplit := takeWhile_all_append cs' rest
      (fun x hx => hsafe x (by simp [hx])) hrest
    rw [List.cons_append]
    rw [tokenize_cons_safe c (cs' ++ rest) hc]
    rw [hsplit.1, hsplit.2]

/-- Dropping the digit prefix of a safe run with a non-digit lands on a
safe (non-bracket) character. -/
theorem dropWhile_digits_head (n₂ : List Char) :
    ∀ rest : List Char,
      (∀ c ∈ n₂, pathSafeChar c = true) →
      (∃ c ∈ n₂, c.isDigit = false) →
      ∃ c t, (n₂ ++ rest).dropWhile (fun x => x.isDigit) = c :: t ∧ pathSafeChar c = true := by
  induction n₂ with
  | nil => intro rest _ hnd; simp at hnd
  | cons a as ih =>
    intro rest hsafe hnd
    by_cases ha : a.isDigit = true
    · have hnd' : ∃ c ∈ as, c.isDigit = false := by
        rcases hnd with ⟨c, hc, hcd⟩
        rcases List.mem_cons.mp hc with rfl | hmem
        · rw [ha] at hcd; simp at hcd
        · exact ⟨c, hmem, hcd⟩
      have := ih rest (fun x hx => hsafe x (by simp [hx])) hnd'
      simpa [List.dropWhile, ha] using this
    · refine ⟨a, as ++ rest, ?_, hsafe a (by simp)⟩
      simp [List.dropWhile, ha]

/-- No numeric bracket group is read when the character after the digit
run is not a closing bracket. -/
theorem bracketNum_none_of_safe_head (l : List Char)
    (h : ∃ c t, l.dropWhile (fun x => x.isDigit) = c :: t ∧ pathSafeChar c = true) :
    bracketNum l = none := by
  obtain ⟨c, t, hdw, hc⟩ := h
  unfold bracketNum
  by_cases he : (l.takeWhile (fun x => x.isDigit)).isEmpty = true
  · rw [if_pos he]
  · rw [if_neg he]
    rw [← dropWhile_eq_drop_len] at *
    rw [hdw]
    have hne : c ≠ ']' := by
      intro hcontra
      subst hcontra
      simp [pathSafeChar] at hc
    split
    · rename_i tail heq
      rw [List.cons.injEq] at heq
      exact absurd heq.1 hne
    · rfl

/-- C8 (amended): the viewer's path tokenizer never reports an error — it
silently produces a segment list: adjacent separators contribute no
segment, a trailing separator is ignored, and a non-numeric bracket body
is tokenized as a property segment.  (As stated the claim is false: see
the counterexample, where the spec's parse contract demands MalformedPath
but the code returns segments.) -/
theorem claim_C8_silent_tokenizer (n₁ n₂ : List Char)
    (h₁ : n₁ ≠ [] ∧ ∀ c ∈ n₁, pathSafeChar c = true)
    (h₂ : n₂ ≠ [] ∧ ∀ c ∈ n₂, pathSafeChar c = true)
    (h₂nd : ∃ c ∈ n₂, c.isDigit = false) :
    tokenize (n₁ ++ '.' :: '.' :: n₂) =
      [.property (String.mk n₁), .property (String.mk n₂)] ∧
    tokenize (n₁ ++ ['.']) = [.property (String.mk n₁)] ∧
    tokenize (n₁ ++ '[' :: (n₂ ++ [']'])) =
      [.property (String.mk n₁), .property (String.mk n₂)] := by
  obtain ⟨h₁ne, h₁safe⟩ := h₁
  obtain ⟨h₂ne, h₂safe⟩ := h₂
  refine ⟨?_, ?_, ?_⟩
  · rw [tokenize_run n₁ ('.' :: '.' :: n₂) h₁ne h₁safe
      (Or.inr ⟨'.', '.' :: n₂, rfl, by simp [pathSafeChar]⟩)]
    rw [tokenize_dot, tokenize_dot]
    conv_lhs => rw [show n₂ = n₂ ++ [] from by simp]
    rw [tokenize_run n₂ [] h₂ne h₂safe (Or.inl rfl)]
    simp [tokenize]
  · rw [tokenize_run n₁ ['.'] h₁ne h₁safe
      (Or.inr ⟨'.', [], rfl, by simp [pathSafeChar]⟩)]
    rw [tokenize_dot]
    simp [tokenize]
  · rw [tokenize_run n₁ ('[' :: (n₂ ++ [']'])) h₁ne h₁safe
      (Or.inr ⟨'[', n₂ ++ [']'], rfl, by simp [pathSafeChar]⟩)]
    rw [tokenize_lbracket_none _ (bracketNum_none_of_safe_head _
      (dropWhile_digits_head n₂ [']'] h₂safe h₂nd))]
    rw [tokenize_run n₂ [']'] h₂ne h₂safe
      (Or.inr ⟨']', [], rfl, by simp [pathSafeChar]⟩)]
    rw [tokenize_rbracket]
    simp [tokenize]

/-- C8 witness: the silent tokenizations at names `x` and `y2`. -/
theorem claim_C8_silent_tokenizer_witness :
    (("x" : String).data ≠ [] ∧ ∀ c ∈ ("x" : String).data, pathSafeChar c = true) ∧
    (("y2" : String).data ≠ [] ∧ ∀ c ∈ ("y2" : String).data, pathSafeChar c = true) ∧
    (∃ c ∈ ("y2" : String).data, c.isDigit = false) ∧
    tokenize (("x" : String).data ++ '.' :: '.' :: ("y2" : String).data) =
      [.property "x", .property "y2"] ∧
    tokenize (("x" : String).data ++ ['.']) = [.property "x"] ∧
    tokenize (("x" : String).data ++ '[' :: (("y2" : String).data ++ [']'])) =
      [.property "x", .property "y2"] := by
  have h := claim_C8_silent_tokenizer ("x" : String).data ("y2" : String).data
    ⟨by decide, by decide⟩ ⟨by decide, by decide⟩ (by decide)
  exact ⟨⟨by decide, by decide⟩, ⟨by decide, by decide⟩, by decide, h.1, h.2.1, h.2.2⟩


/-- Scanning a quote-free body finds exactly the body and the tail after
the closing quote-bracket. -/
theorem scanBody_spec (b : List Char) :
    ∀ rest : List Char, (∀ c ∈ b, c ≠ '\'') →
      scanBody (b ++ '\'' :: ']' :: rest) = some (b, rest) := by
  induction b with
  | nil => intro rest _; simp [scanBody]
  | cons c bs ih =>
    intro rest hq
    have hc : c ≠ '\'' := hq c (by simp)
    rw [List.cons_append, scanBody.eq_def]
    split
    · rename_i heq; cases heq
    · rename_i c' rest' heq
      rw [List.cons.injEq] at heq
      obtain ⟨rfl, rfl⟩ := heq
      rw [if_neg (by exact fun h => hc h)]
      rw [ih rest (fun x hx => hq x (by simp [hx]))]
      rfl

/-- The quoted-group rewriter copies any character that does not open a
bracket. -/
theorem replaceQuoted_cons_safe (c : Char) (t : List Char) (hc : c ≠ '[') :
    replaceQuoted (c :: t) = c :: replaceQuoted t := by
  rw [replaceQuoted.eq_def]
  split
  · rename_i heq; cases heq
  · rename_i rest heq
    rw [List.cons.injEq] at heq
    exact absurd heq.1 hc
  · rename_i c' rest heq
    rw [List.cons.injEq] at heq
    obtain ⟨rfl, rfl⟩ := heq
    rfl

/-- The quoted-group rewriter copies an opening bracket not followed by a
quote. -/
theorem replaceQuoted_lbracket_noquote (c : Char) (t : List Char) (hc : c ≠ '\'') :
    replaceQuoted ('[' :: c :: t) = '[' :: replaceQuoted (c :: t) := by
  rw [replaceQuoted.eq_def]
  split
  · rename_i heq; cases heq
  · rename_i rest heq
    rw [List.cons.injEq] at heq
    obtain ⟨-, heq2⟩ := heq
    rw [List.cons.injEq] at heq2
    exact absurd heq2.1 hc
  · rename_i c' rest heq
    rw [List.cons.injEq] at heq
    obtain ⟨rfl, rfl⟩ := heq
    rfl

/-- The quoted-group rewriter rewrites one well-formed quoted group and
continues after it. -/
theorem replaceQuoted_quoted (b rest : List Char) (hb : b ≠ [])
    (hq : ∀ c ∈ b, c ≠ '\'') :
    replaceQuoted ('[' :: '\'' :: (b ++ '\'' :: ']' :: rest)) =
      (if b.all (·.isDigit) then '[' :: b ++ [']'] else '.' :: b) ++ replaceQuoted rest := by
  rw [replaceQuoted.eq_def]
  split
  · rename_i heq; cases heq
  · rename_i rest' heq
    rw [List.cons.injEq] at heq
    obtain ⟨-, heq2⟩ := heq
    rw [List.cons.injEq] at heq2
    obtain ⟨-, rfl⟩ := heq2
    rw [scanBody_spec b rest hq]
    cases b with
    | nil => exact absurd rfl hb
    | cons b0 bs => rfl
  · rename_i l c' rest' hx heq
    rw [List.cons.injEq] at heq
    obtain ⟨h1, h2⟩ := heq
    exact ((hx _ h1.symm h2.symm)).elim

/-- The quoted-group rewriter copies a bracket-free run verbatim. -/
theorem replaceQuoted_run (l : List Char) :
    ∀ rest : List Char, (∀ c ∈ l, c ≠ '[') →
      replaceQuoted (l ++ rest) = l ++ replaceQuoted rest := by
  induction l with
  | nil => intro rest _; rfl
  | cons c t ih =>
    intro rest hl
    rw [List.cons_append]
    rw [replaceQuoted_cons_safe c (t ++ rest) (hl c (by simp))]
    rw [ih rest (fun x hx => hl x (by simp [hx]))]
    rfl

/-- Over a well-formed foreign path body, the quoted-group rewriter
produces exactly the canonical app-notation body. -/
theorem replaceQuoted_path (segs : List ForeignSeg) (hwf : ∀ s ∈ segs, s.WellFormed) :
    replaceQuoted (renderForeignPath segs).data = (renderAppPath segs).data := by
  induction segs with
  | nil => simp [renderForeignPath, renderAppPath, replaceQuoted]
  | cons s rest ih =>
    have hs := hwf s (by simp)
    have ihr := ih (fun x hx => hwf x (by simp [hx]))
    cases s with
    | quoted b =>
      obtain ⟨hbne, hbq⟩ := hs
      have hdata : (renderForeignPath (ForeignSeg.quoted b :: rest)).data =
          '[' :: '\'' :: (b.data ++ '\'' :: ']' :: (renderForeignPath rest).data) := by
        show ((("['" ++ b ++ "']")) ++ renderForeignPath rest).data = _
        simp [List.append_assoc]
      rw [hdata]
      rw [replaceQuoted_quoted b.data _ hbne hbq]
      rw [ihr]
      by_cases hd : b.data.all (·.isDigit) = true <;>
        simp [ForeignSeg.toApp, renderAppPath, hd, List.append_assoc]
    | plain d =>
      obtain ⟨hdne, hdd⟩ := hs
      cases hdl : d.data with
      | nil => exact absurd hdl hdne
      | cons d0 ds =>
        have hd0 : d0.isDigit = true := by
          have := hdd d0 (by rw [hdl]; simp)
          exact this
        have hd0q : d0 ≠ '\'' := by
          intro hcontra
          rw [hcontra] at hd0
          simp at hd0
        have hdata : (renderForeignPath (ForeignSeg.plain d :: rest)).data =
            '[' :: (d0 :: ds ++ ']' :: (renderForeignPath rest).data) := by
          show ((("[" ++ d ++ "]")) ++ renderForeignPath rest).data = _
          simp [hdl, List.append_assoc]
        rw [hdata]
        rw [show ('[' :: (d0 :: ds ++ ']' :: (renderForeignPath rest).data)) =
            ('[' :: d0 :: (ds ++ ']' :: (renderForeignPath rest).data)) from rfl]
        rw [replaceQuoted_lbracket_noquote d0 _ hd0q]
        rw [show (d0 :: (ds ++ ']' :: (renderForeignPath rest).data)) =
            ((d0 :: ds) ++ ']' :: (renderForeignPath rest).data) from rfl]
        rw [replaceQuoted_run (d0 :: ds) _ ?safe]
        case safe =>
          intro x hx
          have hxd : x.isDigit = true := by
            apply hdd
            rw [hdl]
            exact hx
          intro hcontra
          rw [hcontra] at hxd
          simp at hxd
        rw [replaceQuoted_cons_safe ']' _ (by decide)]
        rw [ihr]
        simp [ForeignSeg.toApp, renderAppPath, hdl, List.append_assoc]



/-- The leading-dot cleanup leaves any list not starting with dot-bracket
unchanged. -/
theorem cleanupDotBracket_eq_self (l : List Char) (h : ∀ r, l ≠ '.' :: '[' :: r) :
    cleanupDotBracket l = l := by
  rw [cleanupDotBracket.eq_def]
  split
  · rename_i rest
    exact absurd rfl (h rest)
  · rfl

/-- C7 counterexample: for the well-formed foreign path whose single
quoted body is `[x]` — as the query evaluator renders a match on a root
key named `[x]` — the conversion does NOT produce the Property segment
`.[x]` the claim demands: the final leading-dot cleanup strips the fresh
dot and yields the index-form text `[x]`. -/
theorem claim_C7_counterexample :
    (ForeignSeg.quoted "[x]").WellFormed ∧
    "$" ++ renderForeignPath [ForeignSeg.quoted "[x]"] = "$['[x]']" ∧
    renderAppPath [ForeignSeg.quoted "[x]"] = ".[x]" ∧
    convertJsonPathToAppPath "$['[x]']" = "[x]" ∧
    convertJsonPathToAppPath ("$" ++ renderForeignPath [ForeignSeg.quoted "[x]"]) ≠
      renderAppPath [ForeignSeg.quoted "[x]"] := by
  refine ⟨⟨by decide, by decide⟩, rfl, rfl, ?_, ?_⟩
  · simp [convertJsonPathToAppPath, replaceQuoted, stripDollar, cleanupDotBracket, scanBody]
  · rw [show ("$" ++ renderForeignPath [ForeignSeg.quoted "[x]"]) = "$['[x]']" from rfl]
    rw [show renderAppPath [ForeignSeg.quoted "[x]"] = ".[x]" from rfl]
    simp [convertJsonPathToAppPath, replaceQuoted, stripDollar, cleanupDotBracket, scanBody]

/-- C7 (amended): converting a well-formed foreign bracket-quoted path
whose FIRST quoted body does not start with an opening bracket turns each
all-digit quoted body into an Index segment and every other quoted body
into a Property segment, plain indices staying Index segments — the
conversion equals the canonical app-notation rendering.  (As stated over
every evaluator output the claim is false: see the counterexample, where
the final cleanup strips the dot of a first body starting with `[`.) -/
theorem claim_C7_foreign_path_conversion (segs : List ForeignSeg)
    (hwf : ∀ s ∈ segs, s.WellFormed)
    (hhead : ∀ b rest, segs = ForeignSeg.quoted b :: rest → b.data.head? ≠ some '[') :
    convertJsonPathToAppPath ("$" ++ renderForeignPath segs) = renderAppPath segs := by
  unfold convertJsonPathToAppPath
  have hstrip : stripDollar ("$" ++ renderForeignPath segs).data =
      (renderForeignPath segs).data := rfl
  rw [hstrip, replaceQuoted_path segs hwf]
  suffices h : cleanupDotBracket (renderAppPath segs).data = (renderAppPath segs).data by
    rw [h]
  apply cleanupDotBracket_eq_self
  intro r
  cases segs with
  | nil => simp [renderAppPath]
  | cons s rest =>
    cases s with
    | quoted b =>
      by_cases hd : b.data.all (·.isDigit) = true
      · intro hcontra
        have : (renderAppPath (ForeignSeg.quoted b :: rest)).data =
            '[' :: (b.data ++ (']' :: (renderAppPath rest).data)) := by
          show ((ForeignSeg.quoted b).toApp ++ renderAppPath rest).data = _
          simp [ForeignSeg.toApp, hd, List.append_assoc]
        rw [this] at hcontra
        cases hcontra
      · have hbhead := hhead b rest rfl
        intro hcontra
        have : (renderAppPath (ForeignSeg.quoted b :: rest)).data =
            '.' :: (b.data ++ (renderAppPath rest).data) := by
          show ((ForeignSeg.quoted b).toApp ++ renderAppPath rest).data = _
          simp [ForeignSeg.toApp, hd, List.append_assoc]
        rw [this] at hcontra
        rw [List.cons.injEq] at hcontra
        obtain ⟨-, hcontra2⟩ := hcontra
        cases hbd : b.data with
        | nil =>
          exact absurd hbd (hwf (ForeignSeg.quoted b) (by simp)).1
        | cons b0 bt =>
          rw [hbd] at hcontra2
          rw [List.cons_append, List.cons.injEq] at hcontra2
          apply hbhead
          rw [hbd, hcontra2.1]
          rfl
    | plain d =>
      intro hcontra
      have : (renderAppPath (ForeignSeg.plain d :: rest)).data =
          '[' :: (d.data ++ (']' :: (renderAppPath rest).data)) := by
        show ((ForeignSeg.plain d).toApp ++ renderAppPath rest).data = _
        simp [ForeignSeg.toApp, List.append_assoc]
      rw [this] at hcontra
      cases hcontra



/-- C7 witness: the conversion at the spec's example path. -/
theorem claim_C7_witness :
    convertJsonPathToAppPath "$['store']['book'][0]['title']" = ".store.book[0].title" := by
  have h := claim_C7_foreign_path_conversion
    [.quoted "store", .quoted "book", .plain "0", .quoted "title"]
    (by
      intro s hs
      simp only [List.mem_cons, List.not_mem_nil, or_false] at hs
      rcases hs with rfl | rfl | rfl | rfl
      · exact ⟨by decide, by decide⟩
      · exact ⟨by decide, by decide⟩
      · exact ⟨by decide, by decide⟩
      · exact ⟨by decide, by decide⟩)
    (by
      intro b rest hb
      rw [List.cons.injEq] at hb
      obtain ⟨h1, -⟩ := hb
      injection h1 with h2
      rw [← h2]
      decide)
  exact h

end JSONLab
